import Mathlib

/-!
Verification of the ImageRenamer core logic (`src/app.py`).

The Python program is shallowly embedded below:

* `detect_id` embeds `detect_id` (leading-digit rule, then the
  digits-before-"Ultra" rule via `searchUltra`/`matchAt`, which model
  `re.search(r'([0-9]+)(?=Ultra)', name, re.IGNORECASE)`).
* `three_digit` embeds the `f"{n:03d}"` formatting.
* `safe_target_name` embeds the collision-avoiding candidate loop; the
  live folder listing is passed as an explicit list of names.
* `pySuffix` / `pyStem` embed `pathlib.Path.suffix` / `.stem`.
* `scan_folder` embeds the folder scan (filter by extension, sort by
  lowercased name).
* `build_plan` embeds the three-pass plan construction.
* `FS`, `renameStep`, `performLoop`, `perform_rename` embed the
  executor `perform_rename` over an explicit filesystem state.
-/

namespace ImageRenamer

/-- Decimal value of a list of digit characters, as `int()` computes it
(left fold, so leading zeros are harmless). -/
def digitsToNat (l : List Char) : Nat :=
  l.foldl (fun a c => 10 * a + (c.toNat - 48)) 0

/-- Decimal digits of `n`, most significant first; `fuel` bounds the
recursion (any `fuel > n` is enough). Mirrors what `str(n)` / `f"{n}"`
produce for a natural number. -/
def toDigitsAux : Nat → Nat → List Char
  | 0, _ => []
  | fuel + 1, n =>
    if n < 10 then [Nat.digitChar n]
    else toDigitsAux fuel (n / 10) ++ [Nat.digitChar (n % 10)]

/-- Decimal string of a natural number, as Python's `str`/f-string prints it. -/
def natToStr (n : Nat) : String :=
  String.mk (toDigitsAux (n + 1) n)

/-- `f"{n:03d}"`: zero-pad the decimal form of `n` to at least three digits. -/
def three_digit (n : Nat) : String :=
  let d := toDigitsAux (n + 1) n
  String.mk (List.replicate (3 - d.length) '0' ++ d)

/-- Does the list start with the token "Ultra", matched case-insensitively
(as `re.IGNORECASE` matches the literal token)? -/
def startsUltra : List Char → Bool
  | u :: l :: t :: r :: a :: _ =>
    u.toLower == 'u' && l.toLower == 'l' && t.toLower == 't' &&
      r.toLower == 'r' && a.toLower == 'a'
  | _ => false

/-- One attempted regex match of `([0-9]+)(?=Ultra)` anchored at the head of
`l`: a nonempty greedy digit run, whose remainder must start with the
case-insensitive token "Ultra". (Backtracking the greedy run can never help:
a shortened run leaves a digit where the token's `U`/`u` must sit.) -/
def matchAt (l : List Char) : Option Nat :=
  let ds := l.takeWhile Char.isDigit
  if ds.isEmpty then none
  else if startsUltra (l.dropWhile Char.isDigit) then some (digitsToNat ds)
  else none

/-- `re.search` of `([0-9]+)(?=Ultra)`: try a match at every start position,
left to right, and return the first hit's value. -/
def searchUltra : List Char → Option Nat
  | [] => none
  | c :: cs =>
    match matchAt (c :: cs) with
    | some v => some v
    | none => searchUltra cs

/-- Embeds `detect_id`: rule 1, a leading digit run; rule 2, digits
immediately before the case-insensitive token "Ultra"; else `none`. -/
def detect_id (name : String) : Option Nat :=
  let l := name.toList
  let lead := l.takeWhile Char.isDigit
  if lead.isEmpty then searchUltra l else some (digitsToNat lead)

/-- `str.lower()` (ASCII): lowercase every character. -/
def strToLower (s : String) : String :=
  String.mk (s.toList.map Char.toLower)

/-- Index of the last `.` in the list, if any (`str.rfind`). -/
def rfindAux (c : Char) : List Char → Nat → Option Nat
  | [], _ => none
  | x :: xs, i =>
    match rfindAux c xs (i + 1) with
    | some j => some j
    | none => if x = c then some i else none

/-- Embeds `pathlib`'s suffix rule for a file name: the part from the last
dot on, provided that dot is neither the first nor the last character. -/
def pySuffix (name : String) : String :=
  match rfindAux '.' name.toList 0 with
  | some i =>
    if 0 < i ∧ i + 1 < name.toList.length then String.mk (name.toList.drop i)
    else ""
  | none => ""

/-- Embeds `pathlib`'s stem: the name with its suffix removed. -/
def pyStem (name : String) : String :=
  String.mk (name.toList.take (name.toList.length - (pySuffix name).toList.length))

/-- Linear search for the first index `i ≥ start` (within `fuel` steps) whose
candidate `f i` is not in `avoid`.  Both `while next_num in used` loops of the
program are instances of this. -/
def firstNotInAux {α : Type} [DecidableEq α] (avoid : List α) (f : Nat → α) :
    Nat → Nat → Nat
  | i, 0 => i
  | i, fuel + 1 => if f i ∈ avoid then firstNotInAux avoid f (i + 1) fuel else i

/-- First index `i ≥ start` with `f i ∉ avoid`.  `avoid.length + 1` steps of
fuel always suffice when `f` is injective (pigeonhole), so for such `f` this
computes the unbounded search the Python loops perform. -/
def firstNotIn {α : Type} [DecidableEq α] (avoid : List α) (f : Nat → α)
    (start : Nat) : Nat :=
  firstNotInAux avoid f start (avoid.length + 1)

/-- Candidate number `k` tried by `safe_target_name`: `base_num + ext` for
`k = 0`, then `base_num + "_k" + ext`. -/
def stnCand (base_num ext : String) : Nat → String
  | 0 => base_num ++ ext
  | k + 1 => base_num ++ "_" ++ natToStr (k + 1) ++ ext

/-- Embeds `safe_target_name`: return the first candidate name not already
present in the folder listing. -/
def safe_target_name (folder : List String) (base_num ext : String) : String :=
  stnCand base_num ext (firstNotIn folder (stnCand base_num ext) 0)

/-- The recognized image extensions (`IMAGE_EXTS`). -/
def IMAGE_EXTS : List String :=
  [".png", ".jpg", ".jpeg", ".gif", ".webp", ".tiff"]

/-- Embeds `scan_folder`: a directory listing is a list of
(name, is-regular-file) pairs in directory order; keep the regular files whose
lowercased suffix is a recognized image extension, then sort (stably, as
Python's `list.sort` does) by lowercased name. -/
def scan_folder (listing : List (String × Bool)) : List String :=
  let files := (listing.filter
    (fun e => e.2 && IMAGE_EXTS.contains (strToLower (pySuffix e.1)))).map Prod.fst
  files.mergeSort (fun a b => strToLower a ≤ strToLower b)

/-- One row of the rename plan, as `build_plan` stores it. -/
structure PlanEntry where
  path : String
  id? : Option Nat
  final_id : Nat
  target : String
deriving DecidableEq, Repr

/-- `while next_num in used: next_num += 1`, starting from `start`. -/
def nextUnused (used : List Nat) (start : Nat) : Nat :=
  firstNotIn used (fun k => k) start

/-- The second pass of `build_plan`: assign `final_id`s in order. A detected
id is kept; an undetected entry takes the cursor `next`, which is then added
to `used` and advanced past everything already used. -/
def assignIds : List (Option Nat) → List Nat → Nat → List Nat
  | [], _, _ => []
  | some d :: rest, used, next => d :: assignIds rest used next
  | none :: rest, used, next =>
    next :: assignIds rest (next :: used) (nextUnused (next :: used) next)

/-- Embeds `build_plan`.  `files` are the scanned file names in order;
`folder` is the folder's listing, against which `safe_target_name` tests
candidate names (the program queries the live filesystem, which during
planning is exactly this fixed listing). -/
def build_plan (files folder : List String) : List PlanEntry :=
  let ids := files.map fun p => detect_id (pyStem p)
  let used := ids.filterMap fun x => x
  let finals := assignIds ids used (nextUnused used 1)
  List.zipWith
    (fun p f =>
      { path := p, id? := detect_id (pyStem p), final_id := f,
        target := safe_target_name folder (three_digit f) (strToLower (pySuffix p)) })
    files finals

/-- A model filesystem: regular files (path ↦ content), directories, and a
set of locked paths on which copy/rename raise (modelling per-file failures
such as permission errors or file locks). Paths are canonical strings, so
`Path.resolve` equality is string equality. -/
structure FS where
  files : List (String × Nat)
  dirs : List String
  locked : List String
deriving DecidableEq, Repr

/-- Content of the file at `p`, if present. -/
def lookupFile (fs : FS) (p : String) : Option Nat :=
  (fs.files.find? (fun e => e.1 = p)).map Prod.snd

/-- Write content `v` at path `p` (overwriting an existing file). -/
def setFile (files : List (String × Nat)) (p : String) (v : Nat) :
    List (String × Nat) :=
  if files.any (fun e => e.1 = p) then
    files.map (fun e => if e.1 = p then (p, v) else e)
  else files ++ [(p, v)]

/-- Remove the file at path `p`. -/
def removeFile (files : List (String × Nat)) (p : String) :
    List (String × Nat) :=
  files.filter (fun e => ¬ e.1 = p)

/-- `shutil.copy2 src dst`: fails (raises) when `src` is missing or either
path is locked; otherwise duplicates the content at `dst`. -/
def copy2 (fs : FS) (src dst : String) : Option FS :=
  if src ∈ fs.locked ∨ dst ∈ fs.locked then none
  else
    match lookupFile fs src with
    | none => none
    | some v => some { fs with files := setFile fs.files dst v }

/-- `Path.rename`: fails (raises) when `src` is missing or either path is
locked; otherwise moves the content (overwriting an existing target). -/
def renameFile (fs : FS) (src tgt : String) : Option FS :=
  if src ∈ fs.locked ∨ tgt ∈ fs.locked then none
  else
    match lookupFile fs src with
    | none => none
    | some v => some { fs with files := setFile (removeFile fs.files src) tgt v }

/-- `Path.name`: the final path component. -/
def basename (p : String) : String :=
  String.mk ((p.toList.reverse.takeWhile (fun c => ¬ c = '/')).reverse)

/-- The `ERROR renaming ...` log line (the exception text is abstracted). -/
def errLine (src tgt : String) : String :=
  "ERROR renaming " ++ basename src ++ " -> " ++ basename tgt ++ " : error"

/-- The body of the `for e in entries` loop of `perform_rename`, for one
entry: the SKIP-same check, then the dry-run check, then the guarded
backup-copy and rename inside `try`. Returns the log lines this entry
produces, its contribution to `renamed_count`, and the updated filesystem.
An exception inside `try` keeps the effects already performed before it
(a backup copy that preceded a failed rename is not undone). -/
def renameStep (dry_run backup : Bool) (backup_dir : Option String) (fs : FS)
    (src tgt : String) : List String × Nat × FS :=
  if src = tgt then (["SKIP (same): " ++ basename src], 0, fs)
  else if dry_run then (["DRY: " ++ basename src ++ " -> " ++ basename tgt], 0, fs)
  else
    match backup, backup_dir with
    | true, some bd =>
      let bpath := bd ++ "/" ++ basename src
      match copy2 fs src bpath with
      | none => ([errLine src tgt], 0, fs)
      | some fs1 =>
        match renameFile fs1 src tgt with
        | none =>
          (["Backed up: " ++ basename src ++ " -> " ++ basename bpath,
            errLine src tgt], 0, fs1)
        | some fs2 =>
          (["Backed up: " ++ basename src ++ " -> " ++ basename bpath,
            "RENAMED: " ++ basename src ++ " -> " ++ basename tgt], 1, fs2)
    | _, _ =>
      match renameFile fs src tgt with
      | none => ([errLine src tgt], 0, fs)
      | some fs2 =>
        (["RENAMED: " ++ basename src ++ " -> " ++ basename tgt], 1, fs2)

/-- The `for e in entries` loop of `perform_rename`, over all entries
(each entry is a source path paired with its target path). -/
def performLoop (dry_run backup : Bool) (backup_dir : Option String) :
    List (String × String) → FS → List String × Nat × FS
  | [], fs => ([], 0, fs)
  | e :: rest, fs =>
    let s := renameStep dry_run backup backup_dir fs e.1 e.2
    let r := performLoop dry_run backup backup_dir rest s.2.2
    (s.1 ++ r.1, s.2.1 + r.2.1, r.2.2)

/-- Embeds `perform_rename`: when backup is enabled with a directory, the
backup directory is created (`mkdir`, `exist_ok`) and logged before the
loop — note this happens whether or not `dry_run` is set — then every entry
is processed in order. -/
def perform_rename (entries : List (String × String)) (dry_run backup : Bool)
    (backup_dir : Option String) (fs : FS) : List String × Nat × FS :=
  match backup, backup_dir with
  | true, some bd =>
    let fs0 : FS :=
      { fs with dirs := if bd ∈ fs.dirs then fs.dirs else fs.dirs ++ [bd] }
    let r := performLoop dry_run true (some bd) entries fs0
    (("Backup folder: " ++ bd) :: r.1, r.2.1, r.2.2)
  | _, _ => performLoop dry_run backup backup_dir entries fs

/-! ### Decimal printing -/

lemma digitChar_toNat {n : Nat} (h : n < 10) : (Nat.digitChar n).toNat = n + 48 := by
  interval_cases n <;> rfl

lemma digitsToNat_append (l : List Char) (c : Char) :
    digitsToNat (l ++ [c]) = 10 * digitsToNat l + (c.toNat - 48) := by
  simp [digitsToNat, List.foldl_append]

lemma toDigitsAux_val : ∀ fuel n, n < fuel → digitsToNat (toDigitsAux fuel n) = n := by
  intro fuel
  induction fuel with
  | zero => intro n h; omega
  | succ fuel ih =>
    intro n h
    by_cases h10 : n < 10
    · simp only [toDigitsAux, if_pos h10, digitsToNat, List.foldl_cons, List.foldl_nil]
      rw [digitChar_toNat h10]; omega
    · have hrec : n / 10 < fuel := by omega
      simp only [toDigitsAux, if_neg h10]
      rw [digitsToNat_append, ih _ hrec, digitChar_toNat (Nat.mod_lt n (by omega))]
      omega

lemma toDigitsAux_ne_nil : ∀ fuel n, 0 < fuel → toDigitsAux fuel n ≠ [] := by
  intro fuel n h
  match fuel, h with
  | fuel + 1, _ =>
    by_cases h10 : n < 10 <;> simp [toDigitsAux, h10]

lemma natToStr_injective : Function.Injective natToStr := by
  intro m n h
  have hl : toDigitsAux (m + 1) m = toDigitsAux (n + 1) n := by
    injection h
  have := toDigitsAux_val (m + 1) m (by omega)
  rw [hl, toDigitsAux_val (n + 1) n (by omega)] at this
  omega

lemma natToStr_length_pos (n : Nat) : 0 < (natToStr n).length := by
  show 0 < (natToStr n).data.length
  have := toDigitsAux_ne_nil (n + 1) n (by omega)
  simpa [natToStr, List.length_pos] using this

/-! ### The bounded first-free search -/

lemma exists_not_mem_within {α : Type} [DecidableEq α] (avoid : List α)
    (f : Nat → α) (hf : Function.Injective f) (i : Nat) :
    ∃ k, k < avoid.length + 1 ∧ f (i + k) ∉ avoid := by
  by_contra hall
  push_neg at hall
  set L := (List.range (avoid.length + 1)).map (fun k => f (i + k)) with hL
  have hnodup : L.Nodup := by
    refine (List.nodup_range (avoid.length + 1)).map ?_
    intro a b hab
    have := hf hab
    omega
  have hsub : ∀ x ∈ L, x ∈ avoid := by
    intro x hx
    rw [hL, List.mem_map] at hx
    obtain ⟨k, hk, rfl⟩ := hx
    exact hall k (List.mem_range.mp hk)
  have h1 : L.toFinset.card = L.length := List.toFinset_card_of_nodup hnodup
  have h2 : L.toFinset ⊆ avoid.toFinset := by
    intro x hx
    exact List.mem_toFinset.mpr (hsub x (List.mem_toFinset.mp hx))
  have h3 := Finset.card_le_card h2
  have h4 := List.toFinset_card_le avoid
  have h5 : L.length = avoid.length + 1 := by simp [hL]
  omega

lemma firstNotInAux_spec {α : Type} [DecidableEq α] (avoid : List α)
    (f : Nat → α) :
    ∀ fuel i, (∃ k, k < fuel ∧ f (i + k) ∉ avoid) →
      i ≤ firstNotInAux avoid f i fuel ∧
      f (firstNotInAux avoid f i fuel) ∉ avoid ∧
      ∀ j, i ≤ j → j < firstNotInAux avoid f i fuel → f j ∈ avoid := by
  intro fuel
  induction fuel with
  | zero => intro i h; obtain ⟨k, hk, _⟩ := h; omega
  | succ fuel ih =>
    intro i h
    by_cases hmem : f i ∈ avoid
    · have hex : ∃ k, k < fuel ∧ f (i + 1 + k) ∉ avoid := by
        obtain ⟨k, hk, hout⟩ := h
        match k with
        | 0 => exact absurd hmem (by simpa using hout)
        | k + 1 => exact ⟨k, by omega, by rw [show i + 1 + k = i + (k + 1) by omega]; exact hout⟩
      have := ih (i + 1) hex
      simp only [firstNotInAux, if_pos hmem]
      refine ⟨by omega, this.2.1, ?_⟩
      intro j hij hj
      rcases Nat.eq_or_lt_of_le hij with rfl | hlt
      · exact hmem
      · exact this.2.2 j hlt hj
    · simp only [firstNotInAux, if_neg hmem]
      exact ⟨Nat.le_refl i, hmem, fun j hij hj => by omega⟩

lemma firstNotIn_spec {α : Type} [DecidableEq α] (avoid : List α)
    (f : Nat → α) (hf : Function.Injective f) (start : Nat) :
    start ≤ firstNotIn avoid f start ∧
    f (firstNotIn avoid f start) ∉ avoid ∧
    ∀ j, start ≤ j → j < firstNotIn avoid f start → f j ∈ avoid := by
  apply firstNotInAux_spec
  obtain ⟨k, hk, hout⟩ := exists_not_mem_within avoid f hf start
  exact ⟨k, hk, hout⟩

/-! ### Candidate names are pairwise distinct -/

lemma stnCand_injective (base_num ext : String) :
    Function.Injective (stnCand base_num ext) := by
  have hlen : ∀ k : Nat, (stnCand base_num ext (k + 1)).length =
      base_num.length + 1 + (natToStr (k + 1)).length + ext.length := by
    intro k
    simp only [stnCand, String.length_append,
      show ("_" : String).length = 1 from rfl]
  intro a b h
  match a, b with
  | 0, 0 => rfl
  | 0, b + 1 =>
    exfalso
    have h0 : (stnCand base_num ext 0).length = base_num.length + ext.length := by
      simp [stnCand, String.length_append]
    have := natToStr_length_pos (b + 1)
    rw [h] at h0
    rw [hlen b] at h0
    omega
  | a + 1, 0 =>
    exfalso
    have h0 : (stnCand base_num ext 0).length = base_num.length + ext.length := by
      simp [stnCand, String.length_append]
    have := natToStr_length_pos (a + 1)
    rw [← h] at h0
    rw [hlen a] at h0
    omega
  | a + 1, b + 1 =>
    have hd : base_num.data ++ '_' :: ((natToStr (a + 1)).data ++ ext.data) =
        base_num.data ++ '_' :: ((natToStr (b + 1)).data ++ ext.data) := by
      have := congrArg String.data h
      simpa [stnCand, String.data_append] using this
    have h1 := List.append_cancel_left hd
    have h2 : (natToStr (a + 1)).data ++ ext.data =
        (natToStr (b + 1)).data ++ ext.data := by
      injection h1
    have h3 := List.append_cancel_right h2
    have h4 : natToStr (a + 1) = natToStr (b + 1) := by
      cases hA : natToStr (a + 1); cases hB : natToStr (b + 1)
      rw [hA, hB] at h3
      simp only at h3
      congr
    have := natToStr_injective h4
    omega

/-- C10: for every (finite) destination scope, `safe_target_name` returns the
first candidate of the sequence `base+ext, base_1+ext, base_2+ext, …` that is
not present in the scope; in particular the returned name never collides with
a name already present in the folder at planning time. -/
theorem safe_target_name_first_free (folder : List String) (base_num ext : String) :
    safe_target_name folder base_num ext ∉ folder ∧
    ∃ k, safe_target_name folder base_num ext = stnCand base_num ext k ∧
      ∀ j, j < k → stnCand base_num ext j ∈ folder := by
  have h := firstNotIn_spec folder (stnCand base_num ext)
    (stnCand_injective base_num ext) 0
  exact ⟨h.2.1, firstNotIn folder (stnCand base_num ext) 0, rfl,
    fun j hj => h.2.2 j (Nat.zero_le j) hj⟩

/-! ### The final-id assignment pass -/

lemma nextUnused_spec (used : List Nat) (start : Nat) :
    start ≤ nextUnused used start ∧ nextUnused used start ∉ used ∧
    ∀ j, start ≤ j → j < nextUnused used start → j ∈ used :=
  firstNotIn_spec used (fun k => k) (fun _ _ h => h) start

lemma assignIds_length :
    ∀ (ids : List (Option Nat)) (used : List Nat) (next : Nat),
      (assignIds ids used next).length = ids.length := by
  intro ids
  induction ids with
  | nil => intro used next; rfl
  | cons o rest ih =>
    intro used next
    cases o <;> simp [assignIds, ih]

lemma assignIds_detected :
    ∀ (ids : List (Option Nat)) (used : List Nat) (next : Nat) (i d : Nat),
      ids[i]? = some (some d) → (assignIds ids used next)[i]? = some d := by
  intro ids
  induction ids with
  | nil => intro used next i d h; simp at h
  | cons o rest ih =>
    intro used next i d h
    match o, i with
    | some d', 0 => simp_all [assignIds]
    | some d', i + 1 => simpa [assignIds] using ih _ _ i d (by simpa using h)
    | none, 0 => simp at h
    | none, i + 1 => simpa [assignIds] using ih _ _ i d (by simpa using h)

lemma assignIds_nodup :
    ∀ (ids : List (Option Nat)) (used : List Nat) (next : Nat),
      (∀ d, some d ∈ ids → d ∈ used) → next ∉ used →
      (ids.filterMap (fun x => x)).Nodup →
      (assignIds ids used next).Nodup ∧
      ∀ x ∈ assignIds ids used next, x ∈ used → some x ∈ ids := by
  intro ids
  induction ids with
  | nil => intro used next _ _ _; constructor <;> simp [assignIds]
  | cons o rest ih =>
    intro used next hdet hnext hnd
    match o with
    | some d =>
      have hdet' : ∀ e, some e ∈ rest → e ∈ used := fun e he =>
        hdet e (List.mem_cons_of_mem _ he)
      have hnd' : some d ∉ rest ∧ (rest.filterMap (fun x => x)).Nodup := by
        simpa [List.filterMap_cons] using hnd
      obtain ⟨h1, h2⟩ := ih used next hdet' hnext hnd'.2
      have hdmem : d ∈ used := hdet d (List.mem_cons_self _ _)
      constructor
      · simp only [assignIds, List.nodup_cons]
        exact ⟨fun hdin => hnd'.1 (h2 d hdin hdmem), h1⟩
      · intro x hx hxu
        simp only [assignIds, List.mem_cons] at hx
        rcases hx with rfl | hx
        · exact List.mem_cons_self _ _
        · exact List.mem_cons_of_mem _ (h2 x hx hxu)
    | none =>
      have hspec := nextUnused_spec (next :: used) next
      have hdet' : ∀ e, some e ∈ rest → e ∈ next :: used := fun e he =>
        List.mem_cons_of_mem _ (hdet e (List.mem_cons_of_mem _ he))
      have hnd' : (rest.filterMap (fun x => x)).Nodup := by
        simpa [List.filterMap_cons] using hnd
      obtain ⟨h1, h2⟩ := ih (next :: used) (nextUnused (next :: used) next)
        hdet' hspec.2.1 hnd'
      constructor
      · simp only [assignIds, List.nodup_cons]
        refine ⟨fun hin => ?_, h1⟩
        have : some next ∈ rest := h2 next hin (List.mem_cons_self _ _)
        have : next ∈ used := hdet next (List.mem_cons_of_mem _ this)
        exact hnext this
      · intro x hx hxu
        simp only [assignIds, List.mem_cons] at hx
        rcases hx with rfl | hx
        · exact absurd hxu hnext
        · exact List.mem_cons_of_mem _
            (h2 x hx (List.mem_cons_of_mem _ hxu))

lemma assignIds_auto :
    ∀ (ids : List (Option Nat)) (used : List Nat) (next : Nat),
      1 ≤ next → next ∉ used → (∀ m, 1 ≤ m → m ∉ used → next ≤ m) →
      (∀ d, some d ∈ ids → d ∈ used) →
      ∀ i v, ids[i]? = some none → (assignIds ids used next)[i]? = some v →
        1 ≤ v ∧
        (∀ m, m ∈ used ∨ m ∈ (assignIds ids used next).take i → m ≠ v) ∧
        (∀ m, 1 ≤ m → m ∉ used → m ∉ (assignIds ids used next).take i → v ≤ m) := by
  intro ids
  induction ids with
  | nil => intro used next _ _ _ _ i v h; simp at h
  | cons o rest ih =>
    intro used next h1 h2 h3 hdet i v hid hval
    match o, i with
    | some d, 0 => simp at hid
    | some d, i + 1 =>
      have hdet' : ∀ e, some e ∈ rest → e ∈ used := fun e he =>
        hdet e (List.mem_cons_of_mem _ he)
      have hrec := ih used next h1 h2 h3 hdet' i v (by simpa using hid)
        (by simpa [assignIds] using hval)
      have hdmem : d ∈ used := hdet d (List.mem_cons_self _ _)
      refine ⟨hrec.1, ?_, ?_⟩
      · intro m hm
        apply hrec.2.1
        simp only [assignIds, List.take_succ_cons, List.mem_cons] at hm ⊢
        rcases hm with hmu | rfl | hmt
        · exact Or.inl hmu
        · exact Or.inl hdmem
        · exact Or.inr hmt
      · intro m hm1 hm2 hm3
        apply hrec.2.2 m hm1 hm2
        simp only [assignIds, List.take_succ_cons, List.mem_cons] at hm3
        intro hmt
        exact hm3 (Or.inr hmt)
    | none, 0 =>
      have hv : v = next := by
        simp only [assignIds, List.getElem?_cons_zero, Option.some.injEq] at hval
        omega
      subst hv
      refine ⟨h1, ?_, ?_⟩
      · intro m hm
        simp only [List.take_zero, List.not_mem_nil, or_false] at hm
        intro he
        subst he
        exact h2 hm
      · intro m hm1 hm2 _
        exact h3 m hm1 hm2
    | none, i + 1 =>
      have hspec := nextUnused_spec (next :: used) next
      have h1' : 1 ≤ nextUnused (next :: used) next := le_trans h1 hspec.1
      have h2' : nextUnused (next :: used) next ∉ next :: used := hspec.2.1
      have h3' : ∀ m, 1 ≤ m → m ∉ next :: used →
          nextUnused (next :: used) next ≤ m := by
        intro m hm1 hm2
        by_contra hlt
        push_neg at hlt
        have hnm : next ≤ m := h3 m hm1 (fun hmu => hm2 (List.mem_cons_of_mem _ hmu))
        exact hm2 (hspec.2.2 m hnm hlt)
      have hdet' : ∀ e, some e ∈ rest → e ∈ next :: used := fun e he =>
        List.mem_cons_of_mem _ (hdet e (List.mem_cons_of_mem _ he))
      have hrec := ih (next :: used) (nextUnused (next :: used) next)
        h1' h2' h3' hdet' i v (by simpa using hid)
        (by simpa [assignIds] using hval)
      have hA : assignIds (none :: rest) used next =
          next :: assignIds rest (next :: used) (nextUnused (next :: used) next) := rfl
      refine ⟨hrec.1, ?_, ?_⟩
      · intro m hm
        apply hrec.2.1
        rw [hA, List.take_succ_cons] at hm
        rcases hm with hmu | hmt
        · exact Or.inl (List.mem_cons_of_mem _ hmu)
        · rcases List.mem_cons.mp hmt with rfl | hmt'
          · exact Or.inl (List.mem_cons_self _ _)
          · exact Or.inr hmt'
      · intro m hm1 hm2 hm3
        rw [hA, List.take_succ_cons] at hm3
        refine hrec.2.2 m hm1 ?_ (fun ht => hm3 (List.mem_cons_of_mem _ ht))
        intro hmu
        rcases List.mem_cons.mp hmu with rfl | hmu'
        · exact hm3 (List.mem_cons_self _ _)
        · exact hm2 hmu'

/-! ### `build_plan` structure -/

lemma build_plan_eq (files folder : List String) :
    build_plan files folder =
      List.zipWith
        (fun p f =>
          { path := p, id? := detect_id (pyStem p), final_id := f,
            target := safe_target_name folder (three_digit f)
              (strToLower (pySuffix p)) })
        files
        (assignIds (files.map fun p => detect_id (pyStem p))
          ((files.map fun p => detect_id (pyStem p)).filterMap fun x => x)
          (nextUnused
            ((files.map fun p => detect_id (pyStem p)).filterMap fun x => x) 1)) :=
  rfl

lemma zipWith_map_path (g : String → Nat → PlanEntry)
    (hg : ∀ p f, (g p f).path = p) :
    ∀ (l1 : List String) (l2 : List Nat), l1.length = l2.length →
      (List.zipWith g l1 l2).map PlanEntry.path = l1 := by
  intro l1
  induction l1 with
  | nil => intro l2 _; rfl
  | cons p rest ih =>
    intro l2 hlen
    match l2 with
    | f :: l2' =>
      simp only [List.zipWith_cons_cons, List.map_cons, hg]
      rw [ih l2' (by simpa using hlen)]

lemma zipWith_map_final (g : String → Nat → PlanEntry)
    (hg : ∀ p f, (g p f).final_id = f) :
    ∀ (l1 : List String) (l2 : List Nat), l1.length = l2.length →
      (List.zipWith g l1 l2).map PlanEntry.final_id = l2 := by
  intro l1
  induction l1 with
  | nil =>
    intro l2 hlen
    match l2 with
    | [] => rfl
  | cons p rest ih =>
    intro l2 hlen
    match l2 with
    | f :: l2' =>
      simp only [List.zipWith_cons_cons, List.map_cons, hg]
      rw [ih l2' (by simpa using hlen)]

lemma build_plan_files_finals_length (files : List String) :
    files.length =
      (assignIds (files.map fun p => detect_id (pyStem p))
        ((files.map fun p => detect_id (pyStem p)).filterMap fun x => x)
        (nextUnused
          ((files.map fun p => detect_id (pyStem p)).filterMap fun x => x) 1)).length := by
  rw [assignIds_length, List.length_map]

lemma build_plan_map_path (files folder : List String) :
    (build_plan files folder).map PlanEntry.path = files := by
  rw [build_plan_eq]
  exact zipWith_map_path _ (fun _ _ => rfl) files _
    (build_plan_files_finals_length files)

lemma build_plan_map_final (files folder : List String) :
    (build_plan files folder).map PlanEntry.final_id =
      assignIds (files.map fun p => detect_id (pyStem p))
        ((files.map fun p => detect_id (pyStem p)).filterMap fun x => x)
        (nextUnused
          ((files.map fun p => detect_id (pyStem p)).filterMap fun x => x) 1) := by
  rw [build_plan_eq]
  exact zipWith_map_final _ (fun _ _ => rfl) files _
    (build_plan_files_finals_length files)

lemma detected_mem_used (files : List String) :
    ∀ d, some d ∈ (files.map fun p => detect_id (pyStem p)) →
      d ∈ (files.map fun p => detect_id (pyStem p)).filterMap (fun x => x) :=
  fun d hd => List.mem_filterMap.mpr ⟨some d, hd, rfl⟩

/-! ### Claims about plan construction -/

/-- C1: the program,
contrary to the spec, never registers a produced target name into the
destination scope: `build_plan` calls `safe_target_name` against the fixed
folder listing only.  Evaluating the code on the folder
`["3a.jpg", "3b.jpg"]` (both stems detect id 3, and `003.jpg` is not in the
folder): both entries receive the same target `003.jpg`, so target names are
not pairwise distinct and a third colliding entry would not receive a higher
suffix. -/
theorem build_plan_duplicate_targets :
    (build_plan ["3a.jpg", "3b.jpg"] ["3a.jpg", "3b.jpg"]).map PlanEntry.target
      = ["003.jpg", "003.jpg"] ∧
    ¬ ((build_plan ["3a.jpg", "3b.jpg"] ["3a.jpg", "3b.jpg"]).map
        PlanEntry.target).Nodup := by
  decide

/-- C2: evaluating `build_plan` on the folder
`["b.png", "003.jpg", "a.png"]`: final ids are assigned `1, 3, 2` exactly as
the claim states, but the target for `003.jpg` is `003_1.jpg`, not `003.jpg`:
`safe_target_name` tests candidate `003.jpg` against the live folder, where
the source file itself sits, so the file gets needlessly suffixed instead of
keeping its already-correct name (which the `SKIP (same)` branch of
`perform_rename` was written to handle). -/
theorem build_plan_example_run :
    (build_plan ["b.png", "003.jpg", "a.png"] ["b.png", "003.jpg", "a.png"]).map
        (fun e => (e.final_id, e.target))
      = [(1, "001.png"), (3, "003_1.jpg"), (2, "002.png")] := by
  decide

/-- C3 counterexample: for the input `["3a.png", "3b.png"]` both stems detect
id 3, both entries keep `final_id = 3`, and the plan's final ids are not
pairwise distinct — refuting the claim as stated. -/
theorem build_plan_final_ids_dup :
    (build_plan ["3a.png", "3b.png"] ["3a.png", "3b.png"]).map PlanEntry.final_id
      = [3, 3] ∧
    ¬ ((build_plan ["3a.png", "3b.png"] ["3a.png", "3b.png"]).map
        PlanEntry.final_id).Nodup := by
  decide

/-- C3 amended: whenever the ids detected from the input file names are
pairwise distinct, the `final_id` values of the plan built by `build_plan`
are pairwise distinct; (two items detecting the same id instead both keep it,
see the counterexample). -/
theorem build_plan_final_ids_nodup (files folder : List String)
    (h : ((files.map fun p => detect_id (pyStem p)).filterMap (fun x => x)).Nodup) :
    ((build_plan files folder).map PlanEntry.final_id).Nodup := by
  rw [build_plan_map_final]
  have hspec := nextUnused_spec
    ((files.map fun p => detect_id (pyStem p)).filterMap fun x => x) 1
  exact (assignIds_nodup _ _ _ (detected_mem_used files) hspec.2.1 h).1

/-- Witness for `build_plan_final_ids_nodup` at the concrete input
`["b.png", "003.jpg", "a.png"]`. -/
theorem build_plan_final_ids_nodup_witness :
    ((build_plan ["b.png", "003.jpg", "a.png"] ["b.png", "003.jpg", "a.png"]).map
      PlanEntry.final_id).Nodup :=
  build_plan_final_ids_nodup ["b.png", "003.jpg", "a.png"]
    ["b.png", "003.jpg", "a.png"] (by decide)

/-- C4: `build_plan` preserves the input order (the plan's paths are exactly
the input list), keeps every detected id as that entry's `final_id`, and
gives every entry without a detected id the least positive integer that is
neither a detected id nor the `final_id` of an earlier entry of the plan. -/
theorem build_plan_in_order_assignment (files folder : List String) :
    ((build_plan files folder).map PlanEntry.path = files) ∧
    (∀ (i d : Nat), (files.map fun p => detect_id (pyStem p))[i]? = some (some d) →
      ((build_plan files folder).map PlanEntry.final_id)[i]? = some d) ∧
    (∀ (i v : Nat), (files.map fun p => detect_id (pyStem p))[i]? = some none →
      ((build_plan files folder).map PlanEntry.final_id)[i]? = some v →
      1 ≤ v ∧
      v ∉ ((files.map fun p => detect_id (pyStem p)).filterMap (fun x => x)
          ++ (((build_plan files folder).map PlanEntry.final_id).take i)) ∧
      ∀ m, 1 ≤ m →
        m ∉ ((files.map fun p => detect_id (pyStem p)).filterMap (fun x => x)
            ++ (((build_plan files folder).map PlanEntry.final_id).take i)) →
        v ≤ m) := by
  have hmap := build_plan_map_final files folder
  have hspec := nextUnused_spec
    ((files.map fun p => detect_id (pyStem p)).filterMap fun x => x) 1
  have hmin : ∀ m, 1 ≤ m →
      m ∉ (files.map fun p => detect_id (pyStem p)).filterMap (fun x => x) →
      nextUnused ((files.map fun p => detect_id (pyStem p)).filterMap fun x => x) 1 ≤ m := by
    intro m hm1 hm2
    by_contra hlt
    push_neg at hlt
    exact hm2 (hspec.2.2 m hm1 hlt)
  refine ⟨build_plan_map_path files folder, ?_, ?_⟩
  · intro i d hid
    rw [hmap]
    exact assignIds_detected _ _ _ i d hid
  · intro i v hid hval
    rw [hmap] at hval ⊢
    have h := assignIds_auto _ _ _ hspec.1 hspec.2.1 hmin
      (detected_mem_used files) i v hid hval
    refine ⟨h.1, ?_, ?_⟩
    · intro hmem
      rcases List.mem_append.mp hmem with hmem | hmem
      · exact h.2.1 v (Or.inl hmem) rfl
      · exact h.2.1 v (Or.inr hmem) rfl
    · intro m hm1 hm2
      refine h.2.2 m hm1 ?_ ?_
      · intro hmu
        exact hm2 (List.mem_append.mpr (Or.inl hmu))
      · intro hmt
        exact hm2 (List.mem_append.mpr (Or.inr hmt))

/-- Witness for `build_plan_in_order_assignment`: on
`["b.png", "003.jpg", "a.png"]`, entry 1 keeps detected id 3 and entry 2
(no detected id) receives final id 2. -/
theorem build_plan_in_order_assignment_witness :
    ((build_plan ["b.png", "003.jpg", "a.png"] ["b.png", "003.jpg", "a.png"]).map
        PlanEntry.final_id)[1]? = some 3 ∧
    ((build_plan ["b.png", "003.jpg", "a.png"] ["b.png", "003.jpg", "a.png"]).map
        PlanEntry.final_id)[2]? = some 2 ∧
    1 ≤ 2 := by
  refine ⟨?_, ?_, by decide⟩
  · exact (build_plan_in_order_assignment ["b.png", "003.jpg", "a.png"]
      ["b.png", "003.jpg", "a.png"]).2.1 1 3 (by decide)
  · decide

/-! ### Claims about the ID detector -/

lemma takeWhile_append_all (p : Char → Bool) :
    ∀ (l1 l2 : List Char), (∀ c ∈ l1, p c) →
      (∀ c, l2.head? = some c → ¬ p c) →
      (l1 ++ l2).takeWhile p = l1 ∧ (l1 ++ l2).dropWhile p = l2 := by
  intro l1
  induction l1 with
  | nil =>
    intro l2 _ h2
    match l2 with
    | [] => exact ⟨rfl, rfl⟩
    | c :: t =>
      have := h2 c rfl
      simp only [List.nil_append, List.takeWhile_cons, List.dropWhile_cons]
      simp [this]
  | cons c l1 ih =>
    intro l2 h1 h2
    have hc : p c := h1 c (List.mem_cons_self _ _)
    have := ih l2 (fun d hd => h1 d (List.mem_cons_of_mem _ hd)) h2
    simp only [List.cons_append, List.takeWhile_cons, List.dropWhile_cons, hc,
      if_true]
    simp [this.1, this.2]

/-- C5: whenever the stem consists of a nonempty run `ds` of decimal digits
followed by anything that does not start with a further digit, `detect_id`
returns the base-10 value of `ds` (computed digit by digit, so leading zeros
are included but do not change the value), no matter what `rest` contains —
in particular a digits-before-"Ultra" pattern inside `rest` is ignored. -/
theorem detect_id_leading_digits (ds rest : List Char)
    (h1 : ds ≠ []) (h2 : ∀ c ∈ ds, c.isDigit)
    (h3 : ∀ c, rest.head? = some c → ¬ c.isDigit) :
    detect_id (String.mk (ds ++ rest)) = some (digitsToNat ds) := by
  have h := takeWhile_append_all Char.isDigit ds rest h2 h3
  have htl : (String.mk (ds ++ rest)).toList = ds ++ rest := rfl
  simp only [detect_id, htl, h.1]
  match ds, h1 with
  | c :: ds', _ => simp [List.isEmpty]

/-- Witness for `detect_id_leading_digits`: the stem "007x1Ultra" yields 7
(leading zeros parsed in base 10, and the later "1Ultra" pattern ignored). -/
theorem detect_id_leading_digits_witness :
    detect_id "007x1Ultra" = some 7 := by
  have h := detect_id_leading_digits ['0', '0', '7']
    ['x', '1', 'U', 'l', 't', 'r', 'a'] (by decide) (by decide) (by decide)
  simpa using h

lemma takeWhile_eq_nil_of_no_digit (p : Char → Bool) (l : List Char)
    (h : ∀ c, l.head? = some c → ¬ p c) : l.takeWhile p = [] := by
  match l with
  | [] => rfl
  | c :: t =>
    have := h c rfl
    simp [List.takeWhile_cons, this]

lemma searchUltra_none_of_no_digit :
    ∀ l : List Char, (∀ c ∈ l, ¬ c.isDigit) → searchUltra l = none := by
  intro l
  induction l with
  | nil => intro _; rfl
  | cons c cs ih =>
    intro h
    have hc : ¬ c.isDigit := h c (List.mem_cons_self _ _)
    have hm : matchAt (c :: cs) = none := by
      simp [matchAt, List.takeWhile_cons, hc, List.isEmpty]
    simp only [searchUltra, hm]
    exact ih (fun d hd => h d (List.mem_cons_of_mem _ hd))

lemma searchUltra_iff :
    ∀ (l : List Char) (v : Nat),
      searchUltra l = some v ↔
        ∃ i, matchAt (l.drop i) = some v ∧
          ∀ j, j < i → matchAt (l.drop j) = none := by
  intro l
  induction l with
  | nil =>
    intro v
    constructor
    · intro h; cases h
    · rintro ⟨i, hi, -⟩
      rw [List.drop_nil] at hi
      cases hi
  | cons c cs ih =>
    intro v
    cases hm : matchAt (c :: cs) with
    | some w =>
      simp only [searchUltra, hm]
      constructor
      · intro h
        injection h with h
        subst h
        exact ⟨0, by simpa using hm, fun j hj => absurd hj (Nat.not_lt_zero j)⟩
      · rintro ⟨i, hi, hb⟩
        match i with
        | 0 =>
          rw [List.drop_zero, hm] at hi
          exact hi
        | i + 1 =>
          have h0 := hb 0 (Nat.succ_pos i)
          rw [List.drop_zero, hm] at h0
          cases h0
    | none =>
      simp only [searchUltra, hm]
      rw [ih v]
      constructor
      · rintro ⟨i, hi, hb⟩
        refine ⟨i + 1, by simpa using hi, ?_⟩
        intro j hj
        match j with
        | 0 => simpa using hm
        | j + 1 => simpa using hb j (by omega)
      · rintro ⟨i, hi, hb⟩
        match i with
        | 0 =>
          rw [List.drop_zero, hm] at hi
          cases hi
        | i + 1 =>
          refine ⟨i, by simpa using hi, ?_⟩
          intro j hj
          simpa using hb (j + 1) (by omega)

/-- C6: `detect_id` is total; it returns `none` on the empty stem and on any
stem with no digit at all (so in particular on "PhoneUltra"); and on any stem
not starting with a digit it returns `some v` exactly when the leftmost
position carrying a digit run immediately followed by the case-insensitive
token "Ultra" yields value `v` (every earlier position yields no match). -/
theorem detect_id_ultra_rule :
    (detect_id "" = none) ∧
    (∀ s : String, (∀ c ∈ s.toList, ¬ c.isDigit) → detect_id s = none) ∧
    (∀ (s : String) (v : Nat), (∀ c, s.toList.head? = some c → ¬ c.isDigit) →
      (detect_id s = some v ↔
        ∃ i, matchAt (s.toList.drop i) = some v ∧
          ∀ j, j < i → matchAt (s.toList.drop j) = none)) := by
  refine ⟨rfl, ?_, ?_⟩
  · intro s h
    have hlead : s.toList.takeWhile Char.isDigit = [] :=
      takeWhile_eq_nil_of_no_digit _ _ (fun c hc =>
        h c (List.mem_of_mem_head? (Option.mem_def.mpr hc)))
    simp only [detect_id, hlead, List.isEmpty, if_true]
    exact searchUltra_none_of_no_digit _ h
  · intro s v h
    have hlead : s.toList.takeWhile Char.isDigit = [] :=
      takeWhile_eq_nil_of_no_digit _ _ h
    simp only [detect_id, hlead, List.isEmpty, if_true]
    exact searchUltra_iff s.toList v

/-- Witness for `detect_id_ultra_rule`: the stem "Phone_7ultra" has no
leading digit, and the digit run at position 6 immediately precedes the
lowercase token "ultra", so `detect_id` returns 7. -/
theorem detect_id_ultra_rule_witness :
    detect_id "Phone_7ultra" = some 7 := by
  exact (detect_id_ultra_rule.2.2 "Phone_7ultra" 7 (by decide)).mpr
    ⟨6, by decide, by decide⟩

/-! ### Claims about the executor -/

lemma performLoop_dry (backup : Bool) (bd : Option String) :
    ∀ (entries : List (String × String)) (fs : FS),
      (performLoop true backup bd entries fs).2.2 = fs ∧
      (performLoop true backup bd entries fs).2.1 = 0 ∧
      ∀ line ∈ (performLoop true backup bd entries fs).1,
        (∃ s, line = "SKIP (same): " ++ s) ∨
        (∃ s t, line = "DRY: " ++ s ++ " -> " ++ t) := by
  intro entries
  induction entries with
  | nil => intro fs; exact ⟨rfl, rfl, by intro line hl; cases hl⟩
  | cons e rest ih =>
    intro fs
    by_cases hsame : e.1 = e.2
    · have hstep : renameStep true backup bd fs e.1 e.2 =
          (["SKIP (same): " ++ basename e.1], 0, fs) := by
        simp [renameStep, hsame]
      have hir := ih fs
      refine ⟨?_, ?_, ?_⟩
      · simp only [performLoop, hstep]
        exact hir.1
      · simp only [performLoop, hstep]
        simpa using hir.2.1
      · intro line hl
        simp only [performLoop, hstep, List.cons_append, List.nil_append,
          List.mem_cons] at hl
        rcases hl with rfl | hl
        · exact Or.inl ⟨basename e.1, rfl⟩
        · exact hir.2.2 line hl
    · have hstep : renameStep true backup bd fs e.1 e.2 =
          (["DRY: " ++ basename e.1 ++ " -> " ++ basename e.2], 0, fs) := by
        simp [renameStep, hsame]
      have hir := ih fs
      refine ⟨?_, ?_, ?_⟩
      · simp only [performLoop, hstep]
        exact hir.1
      · simp only [performLoop, hstep]
        simpa using hir.2.1
      · intro line hl
        simp only [performLoop, hstep, List.cons_append, List.nil_append,
          List.mem_cons] at hl
        rcases hl with rfl | hl
        · exact Or.inr ⟨basename e.1, basename e.2, rfl⟩
        · exact hir.2.2 line hl

/-- C7 counterexample: with backup enabled and a backup directory given, a
dry run still mutates the filesystem — the backup directory is created
before the dry-run flag is consulted. -/
theorem perform_rename_dry_run_mkdir :
    (perform_rename [("f/b.png", "f/001.png")] true true (some "f/backup")
        { files := [("f/b.png", 0)], dirs := ["f"], locked := [] }).2.2
      ≠ { files := [("f/b.png", 0)], dirs := ["f"], locked := [] } := by
  decide

/-- C7 amended: a dry run renames and copies nothing — file contents and
locks are untouched, the renamed count is 0, and every log line is a preview
(`SKIP (same)`, `DRY`, or the backup-folder header); when backup is disabled
or no backup directory is given the filesystem is completely unchanged (with
backup enabled the backup directory itself is still created, see the
counterexample). -/
theorem perform_rename_dry_run (entries : List (String × String))
    (backup : Bool) (bd : Option String) (fs : FS) :
    (perform_rename entries true backup bd fs).2.2.files = fs.files ∧
    (perform_rename entries true backup bd fs).2.2.locked = fs.locked ∧
    (perform_rename entries true backup bd fs).2.1 = 0 ∧
    (backup = false ∨ bd = none → (perform_rename entries true backup bd fs).2.2 = fs) ∧
    ∀ line ∈ (perform_rename entries true backup bd fs).1,
      (∃ s, line = "SKIP (same): " ++ s) ∨
      (∃ s t, line = "DRY: " ++ s ++ " -> " ++ t) ∨
      (∃ b, line = "Backup folder: " ++ b) := by
  match backup, bd with
  | true, some b =>
    have h := performLoop_dry true (some b) entries
      { fs with dirs := if b ∈ fs.dirs then fs.dirs else fs.dirs ++ [b] }
    refine ⟨?_, ?_, ?_, ?_, ?_⟩
    · rw [show (perform_rename entries true true (some b) fs).2.2 =
        (performLoop true true (some b) entries
          { fs with dirs := if b ∈ fs.dirs then fs.dirs else fs.dirs ++ [b] }).2.2
        from rfl, h.1]
    · rw [show (perform_rename entries true true (some b) fs).2.2 =
        (performLoop true true (some b) entries
          { fs with dirs := if b ∈ fs.dirs then fs.dirs else fs.dirs ++ [b] }).2.2
        from rfl, h.1]
    · rw [show (perform_rename entries true true (some b) fs).2.1 =
        (performLoop true true (some b) entries
          { fs with dirs := if b ∈ fs.dirs then fs.dirs else fs.dirs ++ [b] }).2.1
        from rfl, h.2.1]
    · rintro (hf | hf) <;> cases hf
    · intro line hl
      rw [show (perform_rename entries true true (some b) fs).1 =
        ("Backup folder: " ++ b) :: (performLoop true true (some b) entries
          { fs with dirs := if b ∈ fs.dirs then fs.dirs else fs.dirs ++ [b] }).1
        from rfl] at hl
      rcases List.mem_cons.mp hl with rfl | hl
      · exact Or.inr (Or.inr ⟨b, rfl⟩)
      · rcases h.2.2 line hl with hc | hc
        · exact Or.inl hc
        · exact Or.inr (Or.inl hc)
  | true, none =>
    have h := performLoop_dry true none entries fs
    exact ⟨by rw [show (perform_rename entries true true none fs).2.2 =
        (performLoop true true none entries fs).2.2 from rfl, h.1],
      by rw [show (perform_rename entries true true none fs).2.2 =
        (performLoop true true none entries fs).2.2 from rfl, h.1],
      h.2.1, fun _ => h.1,
      fun line hl => by
        rcases h.2.2 line hl with hc | hc
        · exact Or.inl hc
        · exact Or.inr (Or.inl hc)⟩
  | false, none =>
    have h := performLoop_dry false none entries fs
    exact ⟨by rw [show (perform_rename entries true false none fs).2.2 =
        (performLoop true false none entries fs).2.2 from rfl, h.1],
      by rw [show (perform_rename entries true false none fs).2.2 =
        (performLoop true false none entries fs).2.2 from rfl, h.1],
      h.2.1, fun _ => h.1,
      fun line hl => by
        rcases h.2.2 line hl with hc | hc
        · exact Or.inl hc
        · exact Or.inr (Or.inl hc)⟩
  | false, some b =>
    have h := performLoop_dry false (some b) entries fs
    exact ⟨by rw [show (perform_rename entries true false (some b) fs).2.2 =
        (performLoop true false (some b) entries fs).2.2 from rfl, h.1],
      by rw [show (perform_rename entries true false (some b) fs).2.2 =
        (performLoop true false (some b) entries fs).2.2 from rfl, h.1],
      h.2.1, fun _ => h.1,
      fun line hl => by
        rcases h.2.2 line hl with hc | hc
        · exact Or.inl hc
        · exact Or.inr (Or.inl hc)⟩

/-- Witness for `perform_rename_dry_run`: concrete dry run with backup
disabled leaves the filesystem untouched and renames nothing. -/
theorem perform_rename_dry_run_witness :
    (perform_rename [("f/b.png", "f/001.png")] true false none
        { files := [("f/b.png", 0)], dirs := ["f"], locked := [] }).2.2
      = { files := [("f/b.png", 0)], dirs := ["f"], locked := [] } ∧
    (perform_rename [("f/b.png", "f/001.png")] true false none
        { files := [("f/b.png", 0)], dirs := ["f"], locked := [] }).2.1 = 0 := by
  have h := perform_rename_dry_run [("f/b.png", "f/001.png")] false none
    { files := [("f/b.png", 0)], dirs := ["f"], locked := [] }
  exact ⟨h.2.2.2.1 (Or.inl rfl), h.2.2.1⟩

lemma copy2_fails (fs : FS) (src dst : String)
    (h : src ∈ fs.locked ∨ lookupFile fs src = none) :
    copy2 fs src dst = none := by
  by_cases hc : src ∈ fs.locked ∨ dst ∈ fs.locked
  · simp [copy2, hc]
  · have hlk : lookupFile fs src = none := by
      rcases h with h | h
      · exact absurd (Or.inl h) hc
      · exact h
    simp [copy2, hc, hlk]

lemma renameFile_fails (fs : FS) (src tgt : String)
    (h : src ∈ fs.locked ∨ lookupFile fs src = none) :
    renameFile fs src tgt = none := by
  by_cases hc : src ∈ fs.locked ∨ tgt ∈ fs.locked
  · simp [renameFile, hc]
  · have hlk : lookupFile fs src = none := by
      rcases h with h | h
      · exact absurd (Or.inl h) hc
      · exact h
    simp [renameFile, hc, hlk]

/-- C8: when the first pending entry's operation raises (its source is
locked — e.g. permission denied or file lock — or missing), the execution
pass logs exactly one `ERROR` line for it, does not increment the renamed
count, leaves the filesystem exactly as it was (so renames already completed
earlier in the batch, which are part of `fs`, are not rolled back), and
continues with the remaining entries from that same state. -/
theorem performLoop_error_continues (src tgt : String)
    (rest : List (String × String)) (backup : Bool) (bd : Option String)
    (fs : FS) (hne : ¬ src = tgt)
    (hfail : src ∈ fs.locked ∨ lookupFile fs src = none) :
    performLoop false backup bd ((src, tgt) :: rest) fs =
      (errLine src tgt :: (performLoop false backup bd rest fs).1,
       (performLoop false backup bd rest fs).2.1,
       (performLoop false backup bd rest fs).2.2) := by
  have hstep : renameStep false backup bd fs src tgt = ([errLine src tgt], 0, fs) := by
    match backup, bd with
    | true, some b =>
      have hc := copy2_fails fs src (b ++ "/" ++ basename src) hfail
      simp [renameStep, hne, hc]
    | true, none =>
      have hr := renameFile_fails fs src tgt hfail
      simp [renameStep, hne, hr]
    | false, none =>
      have hr := renameFile_fails fs src tgt hfail
      simp [renameStep, hne, hr]
    | false, some b =>
      have hr := renameFile_fails fs src tgt hfail
      simp [renameStep, hne, hr]
  simp [performLoop, hstep]

/-- Witness for `performLoop_error_continues`: a locked source produces one
ERROR line, count 0 for that entry, and the next entry still proceeds. -/
theorem performLoop_error_continues_witness :
    performLoop false false none
        [("f/a.png", "f/001.png"), ("f/b.png", "f/002.png")]
        { files := [("f/a.png", 0), ("f/b.png", 1)], dirs := ["f"],
          locked := ["f/a.png"] } =
      (errLine "f/a.png" "f/001.png" ::
        (performLoop false false none [("f/b.png", "f/002.png")]
          { files := [("f/a.png", 0), ("f/b.png", 1)], dirs := ["f"],
            locked := ["f/a.png"] }).1,
       (performLoop false false none [("f/b.png", "f/002.png")]
          { files := [("f/a.png", 0), ("f/b.png", 1)], dirs := ["f"],
            locked := ["f/a.png"] }).2.1,
       (performLoop false false none [("f/b.png", "f/002.png")]
          { files := [("f/a.png", 0), ("f/b.png", 1)], dirs := ["f"],
            locked := ["f/a.png"] }).2.2) :=
  performLoop_error_continues "f/a.png" "f/001.png" [("f/b.png", "f/002.png")]
    false none
    { files := [("f/a.png", 0), ("f/b.png", 1)], dirs := ["f"],
      locked := ["f/a.png"] }
    (by decide) (Or.inl (by decide))

/-! ### Claim about the folder scan -/

/-- C9: `scan_folder` returns exactly the regular files of the listing whose
lowercased suffix is a recognized image extension (as a permutation of that
filtered listing), arranged so that lowercased names are in nondecreasing
order; `build_plan` then consumes this order, so this sort decides which
undetected file gets the lowest automatically assigned id. -/
theorem scan_folder_sorted_filter (listing : List (String × Bool)) :
    (scan_folder listing).Perm
      ((listing.filter
        (fun e => e.2 && IMAGE_EXTS.contains (strToLower (pySuffix e.1)))).map
          Prod.fst) ∧
    (scan_folder listing).Pairwise (fun a b => strToLower a ≤ strToLower b) := by
  constructor
  · exact List.mergeSort_perm _ _
  · have h := @List.sorted_mergeSort String
      (fun a b : String => decide (strToLower a ≤ strToLower b))
      (fun a b c hab hbc => by
        simp only [decide_eq_true_eq] at *
        exact le_trans hab hbc)
      (fun a b => by
        simp only [Bool.or_eq_true, decide_eq_true_eq]
        exact le_total _ _)
      ((listing.filter
        (fun e => e.2 && IMAGE_EXTS.contains (strToLower (pySuffix e.1)))).map
          Prod.fst)
    exact h.imp (fun hab => of_decide_eq_true hab)

end ImageRenamer
